import Mathlib

/-!
Verification of the core of the `spel` spell checker (`src/util.rs`):
a shallow embedding of the dictionary loader, tokenizer, similarity
ranker and membership checker, with theorems checking the specification
document against the code.

Strings are embedded as `List Char` (Rust iterates over `char`s), raw
bytes as `List Nat` (values of `u8`), and floating point similarity
ratios as exact rationals `ℚ` (the quotient `2*M / (len A + len B)` is
the mathematical value the `f32` code computes).
-/

namespace Spel

/-- A Rust `String`/`&str`, embedded as its character sequence. -/
abbrev Str := List Char

/-! ### Similarity engine

`find_word` in `util.rs` calls `difflib::sequencematcher::SequenceMatcher`,
an external crate whose algorithm the specification describes in §4.3
(gestalt pattern matching).  The definitions of this section are modelled
from the spec: longest contiguous common substring, leftmost-in-A then
leftmost-in-B tie break, recursive descent on both sides of the match,
`ratio = 2*M / (len A + len B)`, with the empty/empty pair defined as 1. -/

/-- Length of the longest common prefix of two character lists. -/
def lcp : Str → Str → Nat
  | a :: as_, b :: bs => if a = b then lcp as_ bs + 1 else 0
  | _, _ => 0

/-- Modelled from the spec: all candidate matching blocks `(i, j, size)`
where `size` is the length of the longest block of `a` starting at `i`
matching a block of `b` starting at `j`, enumerated leftmost-in-A first,
then leftmost-in-B. -/
def candidates (a b : Str) : List (Nat × Nat × Nat) :=
  (List.range (a.length + 1)).flatMap fun i =>
    (List.range (b.length + 1)).map fun j => (i, j, lcp (a.drop i) (b.drop j))

/-- Keep the current best block; a later block replaces it only when
strictly longer, so the first maximal block in scan order wins. -/
def pickStep (best c : Nat × Nat × Nat) : Nat × Nat × Nat :=
  if best.2.2 < c.2.2 then c else best

/-- Modelled from the spec: the longest matching block of `a` and `b`,
with the deterministic leftmost tie break; `(0, 0, 0)` when the lists
have no common character. -/
def find_longest_match (a b : Str) : Nat × Nat × Nat :=
  (candidates a b).foldl pickStep (0, 0, 0)

/-- Modelled from the spec: total matched size `M` — the sum of the block
lengths found by recursing on both sides of the longest match.  The fuel
argument only bounds the recursion depth; `a.length + 1` always suffices
because each level strictly shortens the first list. -/
def matchSumFuel : Nat → Str → Str → Nat
  | 0, _, _ => 0
  | fuel + 1, a, b =>
    match find_longest_match a b with
    | (i, j, k) =>
      if k = 0 then 0
      else
        matchSumFuel fuel (a.take i) (b.take j) + k +
          matchSumFuel fuel (a.drop (i + k)) (b.drop (j + k))

/-- Total matched size `M` of the gestalt pattern match of `a` and `b`. -/
def matchSum (a b : Str) : Nat := matchSumFuel (a.length + 1) a b

/-- Modelled from the spec: `SequenceMatcher::ratio` — that is,
`2*M / (len A + len B)`, and `1` when both strings are empty. -/
def ratioOf (a b : Str) : ℚ :=
  if a.length + b.length = 0 then 1
  else 2 * (matchSum a b : ℚ) / ((a.length : ℚ) + (b.length : ℚ))

/-- `find_word` from `util.rs`: one `(ratio, word)` pair per dictionary
word, sorted by descending ratio (Rust `sort_by` with the reversed
comparator is a stable merge sort).  Indexing `word_list[0]` panics on an
empty dictionary, embedded as `none`. -/
def find_word (word : Str) (word_list : List Str) : Option (List (ℚ × Str)) :=
  match word_list with
  | [] => none
  | _ :: _ =>
    some ((word_list.map fun w => (ratioOf word w, w)).mergeSort
      fun x y => decide (y.1 ≤ x.1))

/-! ### Tokenizer -/

/-- Rust `char::is_ascii_uppercase`. -/
def isAsciiUpper (c : Char) : Bool := 'A' ≤ c && c ≤ 'Z'

/-- Rust `char::is_ascii_lowercase`. -/
def isAsciiLower (c : Char) : Bool := 'a' ≤ c && c ≤ 'z'

/-- Rust `char::is_ascii_alphabetic`. -/
def isAsciiAlphabetic (c : Char) : Bool := isAsciiUpper c || isAsciiLower c

/-- Rust `char::is_ascii_digit`. -/
def isAsciiDigit (c : Char) : Bool := '0' ≤ c && c ≤ '9'

/-- Rust `char::is_ascii_alphanumeric`. -/
def isAsciiAlphanumeric (c : Char) : Bool := isAsciiAlphabetic c || isAsciiDigit c

/-- Rust `char::to_ascii_lowercase`. -/
def toAsciiLowercase (c : Char) : Char :=
  if isAsciiUpper c then Char.ofNat (c.toNat + 32) else c

/-- `check_token` from `util.rs`: an empty token is rejected, otherwise
the scan-with-break is `List.any`: some character must be ASCII
alphabetic. -/
def check_token (token : Str) : Bool :=
  if token.length = 0 then false else token.any fun c => isAsciiAlphabetic c

/-- Stripping of a trailing `'s`, phrased on the reversed list:
`ends_with("'s")` followed by `strip_suffix("'s")` in `util.rs`. -/
def stripRevS (r : Str) : Str :=
  if (['s', '\''] : Str).isPrefixOf r then r.drop 2 else r

/-- Stripping of one trailing apostrophe, phrased on the reversed list:
`ends_with("'")` followed by `strip_suffix("'")` in `util.rs`. -/
def stripRevA (r : Str) : Str :=
  if (['\''] : Str).isPrefixOf r then r.drop 1 else r

/-- `strip_apost` from `util.rs`: first strip a trailing `'s` when
present, then — re-examining the result of that first step — strip one
trailing apostrophe when present (the source uses two consecutive `if`s,
the second testing the already-stripped string). -/
def strip_apost (word : Str) : Str :=
  (stripRevA (stripRevS word.reverse)).reverse

/-- Modelled from the spec (§4.2 normalization, for comparison with the
code): strip a trailing possessive marker with only one rule applying —
`'s` if the token ends with it, **else** one bare trailing apostrophe —
and no re-check after stripping. -/
def strip_marker_spec (word : Str) : Str :=
  if (['s', '\''] : Str).isPrefixOf word.reverse then (word.reverse.drop 2).reverse
  else if (['\''] : Str).isPrefixOf word.reverse then (word.reverse.drop 1).reverse
  else word

/-- The token-emission step shared by the word-boundary and end-of-line
cases of `tokenize` in `util.rs`. -/
def flushToken (tmp : Str) : List Str :=
  if check_token tmp then [strip_apost tmp] else []

/-- The character scan of `tokenize` in `util.rs`, with the working
buffer `tmp` made explicit. -/
def tokenizeAux : Str → Str → List Str
  | [], tmp => flushToken tmp
  | c :: cs, tmp =>
    if isAsciiAlphanumeric c || c = '-' || c = '\'' then
      if c = '-' || c = '\'' then tokenizeAux cs (tmp ++ [c])
      else tokenizeAux cs (tmp ++ [toAsciiLowercase c])
    else flushToken tmp ++ tokenizeAux cs []

/-- `tokenize` from `util.rs`. -/
def tokenize (line : Str) : List Str := tokenizeAux line []

/-! ### Dictionary loader -/

/-- A UTF-8 continuation byte. -/
def utf8Cont (b : Nat) : Bool := 128 ≤ b && b ≤ 191

/-- The Unicode replacement character U+FFFD. -/
def replacementChar : Char := Char.ofNat 0xFFFD

/-- Modelled from the spec (§4.1): lossy UTF-8 decoding as performed by
Rust `String::from_utf8_lossy` on each segment — decode well-formed
sequences, replace each maximal invalid subpart with U+FFFD, never
fail.  The fuel only bounds the number of decoding steps; the byte count
always suffices because every step consumes at least one byte. -/
def decodeUtf8LossyFuel : Nat → List Nat → Str
  | 0, _ => []
  | _ + 1, [] => []
  | fuel + 1, b :: bs =>
    if b < 128 then Char.ofNat b :: decodeUtf8LossyFuel fuel bs
    else if 194 ≤ b && b ≤ 223 then
      match bs with
      | [] => [replacementChar]
      | c1 :: rest =>
        if utf8Cont c1 then
          Char.ofNat ((b - 192) * 64 + (c1 - 128)) :: decodeUtf8LossyFuel fuel rest
        else replacementChar :: decodeUtf8LossyFuel fuel (c1 :: rest)
    else if 224 ≤ b && b ≤ 239 then
      match bs with
      | [] => [replacementChar]
      | c1 :: rest =>
        if (b = 224 && 160 ≤ c1 && c1 ≤ 191) ||
            (225 ≤ b && b ≤ 236 && utf8Cont c1) ||
            (b = 237 && 128 ≤ c1 && c1 ≤ 159) ||
            (238 ≤ b && utf8Cont c1) then
          match rest with
          | [] => [replacementChar]
          | c2 :: rest2 =>
            if utf8Cont c2 then
              Char.ofNat ((b - 224) * 4096 + (c1 - 128) * 64 + (c2 - 128)) ::
                decodeUtf8LossyFuel fuel rest2
            else replacementChar :: decodeUtf8LossyFuel fuel (c2 :: rest2)
        else replacementChar :: decodeUtf8LossyFuel fuel (c1 :: rest)
    else if 240 ≤ b && b ≤ 244 then
      match bs with
      | [] => [replacementChar]
      | c1 :: rest =>
        if (b = 240 && 144 ≤ c1 && c1 ≤ 191) ||
            (241 ≤ b && b ≤ 243 && utf8Cont c1) ||
            (b = 244 && 128 ≤ c1 && c1 ≤ 143) then
          match rest with
          | [] => [replacementChar]
          | c2 :: rest2 =>
            if utf8Cont c2 then
              match rest2 with
              | [] => [replacementChar]
              | c3 :: rest3 =>
                if utf8Cont c3 then
                  Char.ofNat ((b - 240) * 262144 + (c1 - 128) * 4096 +
                      (c2 - 128) * 64 + (c3 - 128)) :: decodeUtf8LossyFuel fuel rest3
                else replacementChar :: decodeUtf8LossyFuel fuel (c3 :: rest3)
            else replacementChar :: decodeUtf8LossyFuel fuel (c2 :: rest2)
        else replacementChar :: decodeUtf8LossyFuel fuel (c1 :: rest)
    else replacementChar :: decodeUtf8LossyFuel fuel bs

/-- Lossy UTF-8 decoding of a byte sequence. -/
def decodeUtf8Lossy (bs : List Nat) : Str := decodeUtf8LossyFuel bs.length bs

/-- The byte loop of `get_words` in `util.rs`, with the working buffer
`buf` and the accumulated result `ret` explicit: a newline flushes the
decoded buffer, any other byte is pushed onto it, and a non-empty buffer
left at the end is flushed as the last word. -/
def get_words_aux : List Nat → List Nat → List Str → List Str
  | [], buf, ret => if buf.length > 0 then ret ++ [decodeUtf8Lossy buf] else ret
  | c :: cs, buf, ret =>
    if c = 10 then get_words_aux cs [] (ret ++ [decodeUtf8Lossy buf])
    else get_words_aux cs (buf ++ [c]) ret

/-- `get_words` from `util.rs`. -/
def get_words (fbytes : List Nat) : List Str := get_words_aux fbytes [] []

/-! ### Membership checker

`check_file` in `util.rs` walks a `Lines` reader whose items are
`io::Result<String>`, embedded here as `Option Str`; the word set and
ignore set are `HashSet<String>` values built from word lists, embedded
as lists with membership tested by `contains`. -/

/-- The line loop of `check_file` in `util.rs`, with the line counter
`lcount` explicit: a decoded line emits one `(fname, lcount, token)`
triple per token that is in neither set, a failed line emits nothing,
and the counter always increments. -/
def check_file_aux (fname : String) (words ign_list : List Str) :
    List (Option Str) → Nat → List (String × Nat × Str)
  | [], _ => []
  | some l :: rest, lcount =>
    ((tokenize l).filter fun w => !(words.contains w) && !(ign_list.contains w)).map
        (fun w => (fname, lcount, w)) ++
      check_file_aux fname words ign_list rest (lcount + 1)
  | none :: rest, lcount => check_file_aux fname words ign_list rest (lcount + 1)

/-- `check_file` from `util.rs`: the counter starts at 1. -/
def check_file (fname : String) (reader : List (Option Str))
    (words ign_list : List Str) : List (String × Nat × Str) :=
  check_file_aux fname words ign_list reader 1

/-- Modelled from the spec (§4.5 contract, for comparison with the
code): pair every line with its 1-based number, emit a triple for every
token of every decoded line that is in neither set, and emit nothing for
a line that failed to decode. -/
def check_file_spec (fname : String) (reader : List (Option Str))
    (words ign_list : List Str) : List (String × Nat × Str) :=
  (reader.enumFrom 1).flatMap fun p =>
    match p.2 with
    | none => []
    | some l =>
      ((tokenize l).filter fun w => !(words.contains w) && !(ign_list.contains w)).map
        fun w => (fname, p.1, w)

/-! ### Ignore list -/

/-- Rust `char::is_whitespace` (the Unicode White_Space property). -/
def isRustWhitespace (c : Char) : Bool :=
  c.toNat ∈ ([9, 10, 11, 12, 13, 32, 133, 160, 5760,
    8192, 8193, 8194, 8195, 8196, 8197, 8198, 8199, 8200, 8201, 8202,
    8232, 8233, 8239, 8287, 12288] : List Nat)

/-- Rust `str::trim`. -/
def trimChars (s : Str) : Str :=
  ((s.dropWhile isRustWhitespace).reverse.dropWhile isRustWhitespace).reverse

/-- Rust `str::split(',')`: one segment per stretch between commas,
including empty segments. -/
def splitComma : Str → List Str
  | [] => [[]]
  | c :: cs =>
    if c = ',' then [] :: splitComma cs
    else
      match splitComma cs with
      | s :: rest => (c :: s) :: rest
      | [] => [[c]]

/-- `get_ignore_list` from `util.rs`, with the words read from the
ignore file (an I/O collaborator) passed in as a list: start from the
file's words; with no ad hoc list, return them as they are; otherwise
split the ad hoc list on commas, trim each entry, and append the entries
that are non-empty after trimming. -/
def get_ignore_list (to_ign : Option Str) (ign_file_words : List Str) : List Str :=
  match to_ign with
  | none => ign_file_words
  | some ign =>
    ign_file_words ++ ((splitComma ign).map trimChars).filter fun w => w.length > 0

/-! ### Word-mode ranking loop -/

/-- `topn` as computed at the top of `spell_check_words` in `util.rs`:
the requested count, clamped to the dictionary size when the dictionary
is smaller. -/
def topn_clamp (top n : Nat) : Nat := if n < top then n else top

/-- The inner `for j in 0..topn` loop of `spell_check_words` in
`util.rs`, which indexes `matches[j]` (out of bounds is a panic,
embedded as `none`) and breaks as soon as it sees a ratio of exactly 1;
the fuel counts the remaining iterations, `topn - j`. -/
def visitTop (ms : List (ℚ × Str)) : Nat → Nat → Option (List (ℚ × Str))
  | _, 0 => some []
  | j, fuel + 1 =>
    match ms[j]? with
    | none => none
    | some p =>
      if p.1 = 1 then some [p]
      else (visitTop ms (j + 1) fuel).map fun l => p :: l

/-- The per-query body of `spell_check_words` in `util.rs`: rank the
dictionary with `find_word`, then visit the top `topn` candidates,
returning the list of `(ratio, word)` pairs the loop prints. -/
def spell_check_word (word : Str) (words : List Str) (top : Nat) :
    Option (List (ℚ × Str)) :=
  match find_word word words with
  | none => none
  | some ms => visitTop ms 0 (topn_clamp top words.length)

/-! ## Lemmas about the similarity engine -/

theorem lcp_self (l : Str) : lcp l l = l.length := by
  induction l with
  | nil => rfl
  | cons a as_ ih => simp [lcp, ih]

theorem lcp_le_left : ∀ a b : Str, lcp a b ≤ a.length
  | [], b => by cases b <;> simp [lcp]
  | _ :: _, [] => by simp [lcp]
  | x :: xs, y :: ys => by
    simp only [lcp, List.length_cons]
    split
    · exact Nat.succ_le_succ (lcp_le_left xs ys)
    · exact Nat.zero_le _

theorem lcp_le_right : ∀ a b : Str, lcp a b ≤ b.length
  | [], b => by cases b <;> simp [lcp]
  | _ :: _, [] => by simp [lcp]
  | x :: xs, y :: ys => by
    simp only [lcp, List.length_cons]
    split
    · exact Nat.succ_le_succ (lcp_le_right xs ys)
    · exact Nat.zero_le _

theorem mem_candidates {a b : Str} {c : Nat × Nat × Nat} (h : c ∈ candidates a b) :
    c.1 ≤ a.length ∧ c.2.1 ≤ b.length ∧
      c.2.2 = lcp (a.drop c.1) (b.drop c.2.1) := by
  simp only [candidates, List.mem_flatMap, List.mem_map, List.mem_range] at h
  obtain ⟨i, hi, j, hj, rfl⟩ := h
  exact ⟨Nat.lt_succ_iff.mp hi, Nat.lt_succ_iff.mp hj, rfl⟩

theorem candidates_size_le {a b : Str} {c : Nat × Nat × Nat}
    (h : c ∈ candidates a b) :
    c.1 + c.2.2 ≤ a.length ∧ c.2.1 + c.2.2 ≤ b.length := by
  obtain ⟨h1, h2, h3⟩ := mem_candidates h
  have ha := lcp_le_left (a.drop c.1) (b.drop c.2.1)
  have hb := lcp_le_right (a.drop c.1) (b.drop c.2.1)
  rw [← h3] at ha hb
  rw [List.length_drop] at ha
  rw [List.length_drop] at hb
  omega

theorem foldl_pickStep_mem : ∀ (l : List (Nat × Nat × Nat)) (init : Nat × Nat × Nat),
    l.foldl pickStep init = init ∨ l.foldl pickStep init ∈ l
  | [], _ => Or.inl rfl
  | c :: cs, init => by
    rw [List.foldl_cons]
    rcases foldl_pickStep_mem cs (pickStep init c) with h | h
    · rw [h]
      unfold pickStep
      split
      · exact Or.inr (List.mem_cons_self _ _)
      · exact Or.inl rfl
    · exact Or.inr (List.mem_cons_of_mem _ h)

theorem foldl_pickStep_no_improve :
    ∀ (l : List (Nat × Nat × Nat)) (init : Nat × Nat × Nat),
    (∀ c ∈ l, c.2.2 ≤ init.2.2) → l.foldl pickStep init = init
  | [], _, _ => rfl
  | c :: cs, init, h => by
    rw [List.foldl_cons]
    have hc : pickStep init c = init := by
      have hle := h c (List.mem_cons_self _ _)
      unfold pickStep
      split
      · omega
      · rfl
    rw [hc]
    exact foldl_pickStep_no_improve cs init fun d hd => h d (List.mem_cons_of_mem _ hd)

theorem find_longest_match_le (a b : Str) :
    (find_longest_match a b).1 + (find_longest_match a b).2.2 ≤ a.length ∧
      (find_longest_match a b).2.1 + (find_longest_match a b).2.2 ≤ b.length := by
  have h : find_longest_match a b = (candidates a b).foldl pickStep (0, 0, 0) := rfl
  rcases foldl_pickStep_mem (candidates a b) (0, 0, 0) with hm | hm
  · rw [h, hm]
    simp
  · rw [h] at *
    exact candidates_size_le hm

theorem candidates_cons (a b : Str) : ∃ t, candidates a b = (0, 0, lcp a b) :: t := by
  simp only [candidates, List.range_succ_eq_map, List.flatMap_cons, List.map_cons,
    List.drop_zero, List.cons_append]
  exact ⟨_, rfl⟩

theorem find_longest_match_self (l : Str) :
    find_longest_match l l = (0, 0, l.length) := by
  obtain ⟨t, ht⟩ := candidates_cons l l
  have hstep : pickStep (0, 0, 0) (0, 0, lcp l l) = (0, 0, l.length) := by
    rw [lcp_self]
    cases l.length with
    | zero => rfl
    | succ m => simp [pickStep]
  have hrest : ∀ c ∈ t, c.2.2 ≤ l.length := by
    intro c hc
    have hmem : c ∈ candidates l l := by
      rw [ht]
      exact List.mem_cons_of_mem _ hc
    exact le_trans (Nat.le_add_left _ _) (candidates_size_le hmem).1
  have : find_longest_match l l = t.foldl pickStep (pickStep (0, 0, 0) (0, 0, lcp l l)) := by
    unfold find_longest_match
    rw [ht, List.foldl_cons]
  rw [this, hstep]
  exact foldl_pickStep_no_improve t (0, 0, l.length) hrest

theorem matchSumFuel_succ (fuel : Nat) (a b : Str) :
    matchSumFuel (fuel + 1) a b =
      if (find_longest_match a b).2.2 = 0 then 0
      else
        matchSumFuel fuel (a.take (find_longest_match a b).1)
            (b.take (find_longest_match a b).2.1) +
          (find_longest_match a b).2.2 +
          matchSumFuel fuel
            (a.drop ((find_longest_match a b).1 + (find_longest_match a b).2.2))
            (b.drop ((find_longest_match a b).2.1 + (find_longest_match a b).2.2)) :=
  rfl

theorem matchSumFuel_le : ∀ (fuel : Nat) (a b : Str),
    matchSumFuel fuel a b ≤ a.length ∧ matchSumFuel fuel a b ≤ b.length
  | 0, a, b => by simp [matchSumFuel]
  | fuel + 1, a, b => by
    have hle1 := (find_longest_match_le a b).1
    have hle2 := (find_longest_match_le a b).2
    rw [matchSumFuel_succ]
    split
    · simp
    · have h1 := matchSumFuel_le fuel (a.take (find_longest_match a b).1)
        (b.take (find_longest_match a b).2.1)
      have h2 := matchSumFuel_le fuel
        (a.drop ((find_longest_match a b).1 + (find_longest_match a b).2.2))
        (b.drop ((find_longest_match a b).2.1 + (find_longest_match a b).2.2))
      rw [List.length_take, List.length_take] at h1
      rw [List.length_drop, List.length_drop] at h2
      constructor
      · have := h1.1
        have := h2.1
        omega
      · have := h1.2
        have := h2.2
        omega

theorem matchSum_le (a b : Str) :
    matchSum a b ≤ a.length ∧ matchSum a b ≤ b.length :=
  matchSumFuel_le _ a b

theorem matchSumFuel_nil (fuel : Nat) : matchSumFuel fuel [] [] = 0 :=
  Nat.le_zero.mp (matchSumFuel_le fuel [] []).1

theorem matchSum_self (l : Str) : matchSum l l = l.length := by
  have h : matchSum l l =
      if l.length = 0 then 0
      else
        matchSumFuel l.length (l.take 0) (l.take 0) + l.length +
          matchSumFuel l.length (l.drop (0 + l.length)) (l.drop (0 + l.length)) := by
    unfold matchSum
    rw [matchSumFuel_succ, find_longest_match_self]
  rw [h]
  split
  · omega
  · simp [List.drop_length, matchSumFuel_nil]

theorem ratioOf_self (w : Str) : ratioOf w w = 1 := by
  unfold ratioOf
  split
  · rfl
  · rename_i h
    rw [matchSum_self]
    have hw : (0 : ℚ) < (w.length : ℚ) := by
      have : 0 < w.length := by omega
      exact_mod_cast this
    have hne : ((w.length : ℚ) + (w.length : ℚ)) ≠ 0 := by positivity
    field_simp
    ring

theorem ratioOf_nonneg (a b : Str) : 0 ≤ ratioOf a b := by
  unfold ratioOf
  split
  · norm_num
  · positivity

theorem ratioOf_le_one (a b : Str) : ratioOf a b ≤ 1 := by
  unfold ratioOf
  split
  · norm_num
  · rename_i h
    have hpos : (0 : ℚ) < (a.length : ℚ) + (b.length : ℚ) := by
      have : 0 < a.length + b.length := by omega
      exact_mod_cast this
    rw [div_le_one hpos]
    have h1 := (matchSum_le a b).1
    have h2 := (matchSum_le a b).2
    have : 2 * matchSum a b ≤ a.length + b.length := by omega
    exact_mod_cast this

/-- C1: for every string `w` the similarity ratio of the pair `(w, w)` is
exactly 1 — including the empty/empty pair, which is defined as a perfect
match rather than a division by zero — and for every pair of strings the
ratio lies within `[0, 1]`. -/
theorem ratio_identity_and_bounds :
    (∀ w : Str, ratioOf w w = 1) ∧
      ∀ a b : Str, 0 ≤ ratioOf a b ∧ ratioOf a b ≤ 1 :=
  ⟨ratioOf_self, fun a b => ⟨ratioOf_nonneg a b, ratioOf_le_one a b⟩⟩

/-! ## Lemmas about the ranker -/

/-- C2: for every query string and every non-empty dictionary,
`find_word` returns exactly one `(ratio, word)` candidate per dictionary
word — a permutation of the per-word candidate list, so the result
length equals the dictionary length — ordered by descending similarity
ratio. -/
theorem find_word_one_per_word_sorted (q : Str) (d : List Str) (h : d ≠ []) :
    ∃ r, find_word q d = some r ∧ r.length = d.length ∧
      List.Pairwise (fun x y : ℚ × Str => y.1 ≤ x.1) r ∧
      r.Perm (d.map fun w => (ratioOf q w, w)) := by
  match d, h with
  | w :: ws, _ =>
    refine ⟨((w :: ws).map fun v => (ratioOf q v, v)).mergeSort
        (fun x y => decide (y.1 ≤ x.1)), rfl, ?_, ?_, ?_⟩
    · rw [List.length_mergeSort, List.length_map]
    · have hs := @List.sorted_mergeSort (ℚ × Str)
        (fun x y => decide (y.1 ≤ x.1))
        (fun a b c hab hbc => by
          simp only [decide_eq_true_eq] at *
          exact le_trans hbc hab)
        (fun a b => by
          simp only [Bool.or_eq_true, decide_eq_true_eq]
          exact le_total b.1 a.1)
        ((w :: ws).map fun v => (ratioOf q v, v))
      exact hs.imp fun hxy => by simpa using hxy
    · exact List.mergeSort_perm _ _

/-- Witness for C2 at a concrete query and one-word dictionary. -/
theorem find_word_one_per_word_sorted_witness :
    (([['a']] : List Str) ≠ []) ∧
      ∃ r, find_word ['b'] [['a']] = some r ∧ r.length = ([['a']] : List Str).length ∧
        List.Pairwise (fun x y : ℚ × Str => y.1 ≤ x.1) r ∧
        r.Perm (([['a']] : List Str).map fun w => (ratioOf ['b'] w, w)) :=
  ⟨by decide, find_word_one_per_word_sorted ['b'] [['a']] (by decide)⟩

/-- C7: with a non-empty dictionary the first-entry indexing inside
`find_word` cannot fail, and an empty dictionary is a panic (`none`),
not a silent nonsensical result. -/
theorem find_word_empty_dict_precondition :
    (∀ (w : Str) (l : List Str), l ≠ [] → (find_word w l).isSome = true) ∧
      ∀ w : Str, find_word w [] = none := by
  constructor
  · intro w l hl
    match l, hl with
    | x :: xs, _ => rfl
  · intro w
    rfl

/-- Witness for C7 at a concrete one-word dictionary. -/
theorem find_word_empty_dict_precondition_witness :
    (([['a']] : List Str) ≠ []) ∧ (find_word ['b'] [['a']]).isSome = true :=
  ⟨by decide, find_word_empty_dict_precondition.1 ['b'] [['a']] (by decide)⟩

theorem visitTop_isSome : ∀ (fuel j : Nat) (ms : List (ℚ × Str)),
    j + fuel ≤ ms.length → (visitTop ms j fuel).isSome = true
  | 0, _, _, _ => rfl
  | fuel + 1, j, ms, h => by
    unfold visitTop
    have hj : j < ms.length := by omega
    rw [List.getElem?_eq_getElem hj]
    split
    · rename_i heq
      exact absurd heq (by simp)
    · rename_i p heq
      split
      · rfl
      · have hrec := visitTop_isSome fuel (j + 1) ms (by omega)
        cases hv : visitTop ms (j + 1) fuel with
        | none => rw [hv] at hrec; simp at hrec
        | some r => rfl

/-- C6: when the requested top-N count is at least the dictionary size,
the presentation loop of `spell_check_words` clamps N to the dictionary
size, the candidate list has exactly one entry per dictionary word, and
the loop completes without any out-of-bounds access (no `none`). -/
theorem spell_check_topn_clamped (q : Str) (words : List Str) (top : Nat)
    (hne : words ≠ []) (htop : words.length ≤ top) :
    topn_clamp top words.length = words.length ∧
      ∃ ms, find_word q words = some ms ∧ ms.length = words.length ∧
        (spell_check_word q words top).isSome = true := by
  have hclamp : topn_clamp top words.length = words.length := by
    unfold topn_clamp
    split
    · rfl
    · omega
  refine ⟨hclamp, ?_⟩
  match words, hne with
  | w :: ws, _ =>
    refine ⟨((w :: ws).map fun v => (ratioOf q v, v)).mergeSort
        (fun x y => decide (y.1 ≤ x.1)), rfl, ?_, ?_⟩
    · rw [List.length_mergeSort, List.length_map]
    · unfold spell_check_word find_word
      apply visitTop_isSome
      rw [hclamp, List.length_mergeSort, List.length_map]
      simp

/-- Witness for C6 at a concrete query, dictionary and over-large N. -/
theorem spell_check_topn_clamped_witness :
    (([['a']] : List Str) ≠ []) ∧ ([['a']] : List Str).length ≤ 7 ∧
      (topn_clamp 7 ([['a']] : List Str).length = ([['a']] : List Str).length ∧
        ∃ ms, find_word ['b'] [['a']] = some ms ∧
          ms.length = ([['a']] : List Str).length ∧
          (spell_check_word ['b'] [['a']] 7).isSome = true) :=
  ⟨by decide, by decide, spell_check_topn_clamped ['b'] [['a']] 7 (by decide) (by decide)⟩

/-! ## Lemmas about the tokenizer -/

/-- C3 (counterexample): on the token `a''s` the code strips the `'s`
suffix and then — re-checking the stripped result — also strips the
newly exposed trailing apostrophe, while the one-rule-only
normalization stated by the claim leaves `a'`. -/
theorem strip_apost_one_rule_counterexample :
    strip_apost "a''s".data = "a".data ∧
      strip_marker_spec "a''s".data = "a'".data ∧
      strip_apost "a''s".data ≠ strip_marker_spec "a''s".data :=
  ⟨by decide, by decide, by decide⟩

/-- C3 (amended): for every token that does not end in `''s`,
`strip_apost` agrees with the spec's single-rule normalization — remove
exactly the suffix `'s` when present, otherwise exactly one bare
trailing apostrophe — and the three examples of the claim hold; on
tokens ending in `''s` the code additionally strips the apostrophe
exposed by the first rule. -/
theorem strip_apost_amended :
    (∀ w : Str, ¬ (['\'', '\'', 's'] : Str) <:+ w →
      strip_apost w = strip_marker_spec w) ∧
    strip_apost "jay's".data = "jay".data ∧
    strip_apost "players'".data = "players".data ∧
    strip_apost "ja'y".data = "ja'y".data := by
  refine ⟨?_, by decide, by decide, by decide⟩
  intro w h
  have h3 : ¬ (['s', '\'', '\''] : Str) <+: w.reverse := by
    intro hc
    exact h ((@List.reverse_prefix Char ['\'', '\'', 's'] w).mp (by simpa using hc))
  by_cases h1 : (['s', '\''] : Str).isPrefixOf w.reverse
  · have hs : stripRevS w.reverse = w.reverse.drop 2 := by simp [stripRevS, h1]
    obtain ⟨t, ht⟩ := List.isPrefixOf_iff_prefix.mp h1
    have hdrop : w.reverse.drop 2 = t := by rw [← ht]; rfl
    have hnot : ¬ (['\''] : Str).isPrefixOf t := by
      intro hc
      obtain ⟨t2, ht2⟩ := List.isPrefixOf_iff_prefix.mp hc
      apply h3
      refine ⟨t2, ?_⟩
      rw [← ht, ← ht2]
      rfl
    have ha : stripRevA t = t := by simp [stripRevA, hnot]
    unfold strip_apost strip_marker_spec
    rw [hs, hdrop, ha, if_pos h1]
  · have hs : stripRevS w.reverse = w.reverse := by simp [stripRevS, h1]
    by_cases h2 : (['\''] : Str).isPrefixOf w.reverse
    · have ha : stripRevA w.reverse = w.reverse.drop 1 := by simp [stripRevA, h2]
      unfold strip_apost strip_marker_spec
      rw [hs, ha, if_neg h1, if_pos h2]
    · have ha : stripRevA w.reverse = w.reverse := by simp [stripRevA, h2]
      unfold strip_apost strip_marker_spec
      rw [hs, ha, if_neg h1, if_neg h2]
      exact List.reverse_reverse w

/-- Witness for the amended C3 at a concrete token not ending in `''s`. -/
theorem strip_apost_amended_witness :
    (¬ (['\'', '\'', 's'] : Str) <:+ "jay's".data) ∧
      strip_apost "jay's".data = strip_marker_spec "jay's".data :=
  ⟨by decide, strip_apost_amended.1 "jay's".data (by decide)⟩

/-- C4: tokenizing the spec's example line yields exactly the expected
token sequence — the possessive marker of `that's` is stripped,
`hyphen-ated` stays one token including the hyphen, `::` acts as a
boundary, and empty fragments are discarded. -/
theorem tokenize_example :
    tokenize "a hyphen-ated word that's life::monkey".data =
      ["a".data, "hyphen-ated".data, "word".data, "that".data,
        "life".data, "monkey".data] := by decide

/-- C10: `tokenize` can emit an empty-string token: the buffer `'s`
passes `check_token` (it contains the alphabetic character `s`) and is
then reduced to the empty string by possessive stripping. -/
theorem tokenize_empty_token :
    check_token ['\'', 's'] = true ∧ strip_apost ['\'', 's'] = [] ∧
      tokenize "'s".data = [[]] :=
  ⟨by decide, by decide, by decide⟩

/-! ## Lemmas about the dictionary loader -/

theorem get_words_aux_nil (buf : List Nat) (ret : List Str) :
    get_words_aux [] buf ret =
      if buf.length > 0 then ret ++ [decodeUtf8Lossy buf] else ret := rfl

theorem get_words_aux_cons (c : Nat) (cs buf : List Nat) (ret : List Str) :
    get_words_aux (c :: cs) buf ret =
      if c = 10 then get_words_aux cs [] (ret ++ [decodeUtf8Lossy buf])
      else get_words_aux cs (buf ++ [c]) ret := rfl

theorem get_words_aux_append : ∀ (cs buf : List Nat) (ret : List Str),
    get_words_aux cs buf ret = ret ++ get_words_aux cs buf []
  | [], buf, ret => by
    rw [get_words_aux_nil, get_words_aux_nil]
    split
    · simp
    · simp
  | c :: cs, buf, ret => by
    rw [get_words_aux_cons, get_words_aux_cons]
    split
    · rw [get_words_aux_append cs [] (ret ++ _), get_words_aux_append cs [] ([] ++ _)]
      simp
    · exact get_words_aux_append cs (buf ++ [c]) ret

theorem get_words_aux_segment : ∀ (seg rest buf : List Nat),
    (∀ c ∈ seg, c ≠ 10) →
    get_words_aux (seg ++ 10 :: rest) buf [] =
      decodeUtf8Lossy (buf ++ seg) :: get_words_aux rest [] []
  | [], rest, buf, _ => by
    rw [List.nil_append, List.append_nil, get_words_aux_cons, if_pos rfl,
      get_words_aux_append rest []]
    simp
  | c :: seg, rest, buf, h => by
    have hc : c ≠ 10 := h c (List.mem_cons_self _ _)
    rw [List.cons_append, get_words_aux_cons, if_neg hc,
      get_words_aux_segment seg rest (buf ++ [c]) fun d hd => h d (List.mem_cons_of_mem _ hd)]
    simp

theorem get_words_aux_no_newline : ∀ (seg buf : List Nat), (∀ c ∈ seg, c ≠ 10) →
    get_words_aux seg buf [] =
      if 0 < (buf ++ seg).length then [decodeUtf8Lossy (buf ++ seg)] else []
  | [], buf, _ => by
    rw [get_words_aux_nil]
    simp
  | c :: seg, buf, h => by
    have hc : c ≠ 10 := h c (List.mem_cons_self _ _)
    rw [get_words_aux_cons, if_neg hc,
      get_words_aux_no_newline seg (buf ++ [c]) fun d hd => h d (List.mem_cons_of_mem _ hd)]
    simp

/-- C5: `get_words` is total (never fails) and returns the
newline-delimited segments in source order, each decoded with lossy
UTF-8 replacement: an empty input yields no words, a (possibly empty —
blank lines are preserved) newline-terminated segment is emitted before
the words of the remaining bytes, and a non-empty trailing fragment
without a final newline is included as the last word. -/
theorem get_words_segments :
    get_words [] = [] ∧
      (∀ seg rest : List Nat, (∀ c ∈ seg, c ≠ 10) →
        get_words (seg ++ 10 :: rest) = decodeUtf8Lossy seg :: get_words rest) ∧
      ∀ seg : List Nat, seg ≠ [] → (∀ c ∈ seg, c ≠ 10) →
        get_words seg = [decodeUtf8Lossy seg] := by
  refine ⟨rfl, ?_, ?_⟩
  · intro seg rest h
    unfold get_words
    rw [get_words_aux_segment seg rest [] h]
    rfl
  · intro seg hne h
    unfold get_words
    rw [get_words_aux_no_newline seg [] h]
    cases seg with
    | nil => exact absurd rfl hne
    | cons c cs => simp

/-- Witness for C5: a two-segment byte input with a blank line and a
trailing fragment. -/
theorem get_words_segments_witness :
    (∀ c ∈ ([97] : List Nat), c ≠ 10) ∧
      get_words ([97] ++ 10 :: [98]) = decodeUtf8Lossy [97] :: get_words [98] ∧
      (([98] : List Nat) ≠ [] ∧ get_words [98] = [decodeUtf8Lossy [98]]) :=
  ⟨by decide, get_words_segments.2.1 [97] [98] (by decide),
    by decide, get_words_segments.2.2 [98] (by decide) (by decide)⟩

/-! ## Lemmas about the membership checker -/

theorem check_file_aux_enumFrom :
    ∀ (reader : List (Option Str)) (fname : String) (words ign : List Str) (n : Nat),
    check_file_aux fname words ign reader n =
      (reader.enumFrom n).flatMap fun p =>
        match p.2 with
        | none => []
        | some l =>
          ((tokenize l).filter fun w => !(words.contains w) && !(ign.contains w)).map
            fun w => (fname, p.1, w)
  | [], _, _, _, _ => rfl
  | some l :: rest, fname, words, ign, n => by
    show _ ++ check_file_aux fname words ign rest (n + 1) = _
    rw [check_file_aux_enumFrom rest fname words ign (n + 1)]
    rfl
  | none :: rest, fname, words, ign, n => by
    show check_file_aux fname words ign rest (n + 1) = _
    rw [check_file_aux_enumFrom rest fname words ign (n + 1)]
    rfl

/-- C8: `check_file` emits a `(source, line-number, token)` triple
exactly for the tokens of successfully read lines that are in neither
the word set nor the ignore set; line numbering starts at 1 and
increments for every line regardless of read success, and a line that
fails to read produces no tokens but is still counted — that is, the
loop agrees with the spec's enumerate-from-1 description. -/
theorem check_file_eq_spec (fname : String) (reader : List (Option Str))
    (words ign_list : List Str) :
    check_file fname reader words ign_list =
      check_file_spec fname reader words ign_list :=
  check_file_aux_enumFrom reader fname words ign_list 1

/-! ## Lemmas about the ignore list -/

/-- C9: the ad hoc ignore list is split on commas, each entry is trimmed
of surrounding whitespace, and entries empty after trimming are dropped:
combined with an empty ignore file, the CLI list `a , b  , c,` yields
exactly `a`, `b`, `c`, and the CLI list of one blank and one space-only
entry yields nothing. -/
theorem get_ignore_list_examples :
    get_ignore_list (some "a , b  , c,".data) [] =
        ["a".data, "b".data, "c".data] ∧
      get_ignore_list (some "  , ".data) [] = [] :=
  ⟨by decide, by decide⟩

end Spel
